import Mathlib

/-!
Shallow embedding of the historical-diff progress estimator of the
`build-progress` repository (src/diff.rs, src/util.rs).

Byte strings are modelled as `List Nat`; `std::time::Duration` values as
`Nat` (a duration in nanoseconds); `Instant::elapsed` readings are passed
to the operations as explicit `now : Nat` arguments.  `HashMap` fields are
modelled as association lists together with a last-insertion-wins lookup,
matching `HashMap`: inserting an already present key overwrites its value.
-/

namespace BuildProgress

/-- Mirrors `Line` in src/diff.rs: `data` is the byte content of an output
line, `dur` the associated duration. -/
structure Line where
  data : List Nat
  dur : Nat
deriving DecidableEq

/-- Mirrors `OutputData` in src/diff.rs. -/
structure OutputData where
  lines : List Line
  total : Nat
deriving DecidableEq

/-- Last-insertion-wins lookup in an association list, mirroring repeated
`HashMap::insert` during `collect()`: a later binding of the same key
shadows an earlier one. -/
def mapLookup (m : List (List Nat × Nat)) (l : List Nat) : Option Nat :=
  m.foldl (fun acc p => if p.1 = l then some p.2 else acc) none

/-- The content → sequence-index map built by `OrigOutput::new` from the
deserialized lines (`iter_mut().enumerate()...collect()`), with the running
index starting at `i`. -/
def origMapFrom (i : Nat) : List Line → List (List Nat × Nat)
  | [] => []
  | ln :: rest => (ln.data, i) :: origMapFrom (i + 1) rest

/-- A line with its content moved out (`replace(&mut line.data, Vec::new())`
in `OrigOutput::new`). -/
def zeroLine (ln : Line) : Line :=
  { ln with data := [] }

/-- Mirrors `OrigOutput` in src/diff.rs: the loaded historical trace, the
content → sequence-index map, the match counter `seq` and the accumulated
`elapsed` duration. -/
structure OrigOutput where
  data : OutputData
  map : List (List Nat × Nat)
  seq : Nat
  elapsed : Nat
deriving DecidableEq

/-- Mirrors the `FileEntry::Existing` branch of `OrigOutput::new` after
deserialization succeeded: contents are moved out of the lines into the
map, `seq` and `elapsed` start at zero. -/
def origNew (d : OutputData) : OrigOutput :=
  { data := { lines := d.lines.map zeroLine, total := d.total },
    map := origMapFrom 0 d.lines,
    seq := 0,
    elapsed := 0 }

/-- Mirrors `OrigOutput::write_line` in src/diff.rs: on a map hit at index
`s`, if `seq ≤ s` the accumulated elapsed value is assigned the `dur`
stored at index `s`; the counter `seq` is incremented on every hit. -/
def origWriteLine (o : OrigOutput) (line : List Nat) : OrigOutput :=
  match mapLookup o.map line with
  | some s =>
    let o1 := if o.seq ≤ s
      then { o with elapsed := ((o.data.lines.get? s).map Line.dur).getD 0 }
      else o
    { o1 with seq := o1.seq + 1 }
  | none => o

/-- Variant of `origWriteLine` that makes the panic possibility of the
indexing `self.data.lines[seq as usize]` explicit: `none` models an
out-of-bounds panic. -/
def origWriteLineChecked (o : OrigOutput) (line : List Nat) : Option OrigOutput :=
  match mapLookup o.map line with
  | some s =>
    if o.seq ≤ s then
      match o.data.lines.get? s with
      | some ln => some { o with elapsed := ln.dur, seq := o.seq + 1 }
      | none => none
    else
      some { o with seq := o.seq + 1 }
  | none => some o

/-- Feeding a sequence of live lines to the match engine. -/
def origRun (o : OrigOutput) (stream : List (List Nat)) : OrigOutput :=
  stream.foldl origWriteLine o

/-- Mirrors `LineData` in src/diff.rs. -/
structure LineData where
  seq : Nat
  dup : Bool
deriving DecidableEq

/-- Mirrors `CurrOutput` in src/diff.rs (the run recorder); the `start`
instant is implicit: each operation receives the elapsed time explicitly. -/
structure CurrOutput where
  data : OutputData
  map : List (List Nat × LineData)
deriving DecidableEq

/-- Mirrors `CurrOutput::new`. -/
def currNew : CurrOutput :=
  { data := { lines := [], total := 0 }, map := [] }

/-- Mirrors `CurrOutput::write_line`: `now` is `self.start.elapsed()`.  A
line content seen before has its (unique) map entry marked duplicate; a
fresh content is allocated the next slot, whose stored duration is `now`,
and the slot content stays empty until `finish`. -/
def currWriteLine (c : CurrOutput) (line : List Nat) (now : Nat) : CurrOutput :=
  let s := c.data.lines.length
  match c.map.find? (fun p => decide (p.1 = line)) with
  | some _ =>
    { c with map := c.map.map (fun p => if p.1 = line then (p.1, { p.2 with dup := true }) else p) }
  | none =>
    { data := { c.data with lines := c.data.lines ++ [{ data := [], dur := now }] },
      map := c.map ++ [(line, { seq := s, dup := false })] }

/-- Feeding a sequence of (line, arrival-time) events to the run recorder. -/
def currRun (c : CurrOutput) (inputs : List (List Nat × Nat)) : CurrOutput :=
  inputs.foldl (fun c p => currWriteLine c p.1 p.2) c

/-- One slot update of the `self.map.drain()` loop of `CurrOutput::finish`:
slot `i` receives the content of the (unique, if any) non-duplicate map
entry whose `seq` is `i`. -/
def fillLine (m : List (List Nat × LineData)) (i : Nat) (ln : Line) : Line :=
  match m.find? (fun p => decide (p.2.seq = i) && !p.2.dup) with
  | some p => { ln with data := p.1 }
  | none => ln

/-- Applying `fillLine` to every slot, the slot at position `k` of the list
having index `i + k`. -/
def fillFrom (m : List (List Nat × LineData)) (i : Nat) : List Line → List Line
  | [] => []
  | ln :: rest => fillLine m i ln :: fillFrom m (i + 1) rest

/-- Mirrors `CurrOutput::finish`: fill the slots from the drained map, then
`retain` only the lines whose content is non-empty; `totalNow` is
`self.start.elapsed()` at finish time. -/
def currFinish (c : CurrOutput) (totalNow : Nat) : OutputData :=
  { lines := (fillFrom c.map 0 c.data.lines).filter (fun ln => !ln.data.isEmpty),
    total := totalNow }

/-- Invariant of the run recorder state after processing the lines of
`processed`: map keys are pairwise distinct and are exactly the processed
contents, all slot contents are still empty, and an entry is flagged
duplicate exactly when its content occurred at least twice. -/
structure CurrInv (c : CurrOutput) (processed : List (List Nat)) : Prop where
  keysNodup : (c.map.map Prod.fst).Nodup
  slotsEmpty : ∀ ln ∈ c.data.lines, ln.data = []
  keysMem : ∀ X : List Nat, X ∈ c.map.map Prod.fst ↔ X ∈ processed
  dupIff : ∀ p ∈ c.map, (p.2.dup = true ↔ 2 ≤ processed.count p.1)

/-- Mirrors `diff::Writer` in src/diff.rs (the file handle and path are not
part of the in-memory matching state). -/
structure Writer where
  orig : Option OrigOutput
  curr : CurrOutput
deriving DecidableEq

/-- Mirrors the state produced by `Writer::new`: `orig` is present exactly
when a prior trace existed and deserialized. -/
def writerNew (prior : Option OutputData) : Writer :=
  { orig := prior.map origNew, curr := currNew }

/-- Mirrors `Writer::completed`. -/
def Writer.completed (w : Writer) : Nat :=
  (w.orig.map OrigOutput.elapsed).getD 0

/-- Mirrors `Writer.len`. -/
def Writer.len (w : Writer) : Option Nat :=
  w.orig.map (fun o => o.data.total)

/-- Mirrors `Writer::write_line`: the line is fed to the match engine (when
a trace is loaded) and to the run recorder. -/
def Writer.writeLine (w : Writer) (line : List Nat) (now : Nat) : Writer :=
  { orig := w.orig.map (fun o => origWriteLine o line),
    curr := currWriteLine w.curr line now }

/-- Feeding a sequence of (line, arrival-time) events to the writer. -/
def writerRun (w : Writer) (inputs : List (List Nat × Nat)) : Writer :=
  inputs.foldl (fun w p => w.writeLine p.1 p.2) w

/-- The value of `Writer::completed` observed after each line of a run. -/
def writerCompleteds (w : Writer) : List (List Nat × Nat) → List Nat
  | [] => []
  | p :: rest =>
    let w1 := w.writeLine p.1 p.2
    w1.completed :: writerCompleteds w1 rest

/-- The content of the trace file after `Writer::finish` (src/diff.rs):
the file is truncated and rewritten with the serialized new trace exactly
when the run succeeded or no prior trace was loaded; otherwise it keeps its
stored content.  `serialize` abstracts `json::to_writer`. -/
def writerFinishFile (w : Writer) (success : Bool) (stored : List Nat)
    (serialize : OutputData → List Nat) (totalNow : Nat) : List Nat :=
  if success || w.orig.isNone then serialize (currFinish w.curr totalNow) else stored

/-- Mirrors `FileEntry` in src/util.rs, carrying the file content. -/
inductive FileEntry where
  | existing (content : List Nat)
  | new (content : List Nat)
deriving DecidableEq

/-- Mirrors `open_or_create` in src/util.rs: the file is opened (created if
absent) and classified by its length: length zero means `FileEntry::New`. -/
def openOrCreate (content : List Nat) : FileEntry :=
  if content.length = 0 then FileEntry.new content else FileEntry.existing content

/-- Mirrors `OrigOutput::new` at the file level: only an `Existing` entry
is deserialized (`parse` abstracts `json::from_reader`; `Except.error`
models the `failed to read JSON file` error); a `New` entry yields no
historical output without invoking the deserializer. -/
def origOutputNewFile (entry : FileEntry) (parse : List Nat → Except Unit OutputData) :
    Except Unit (Option OrigOutput) :=
  match entry with
  | FileEntry.existing c => (parse c).map (fun d => some (origNew d))
  | FileEntry.new _ => Except.ok none

/-- A six-line historical trace with cumulative durations 1..6 (the shape
produced by the run recorder) and total 10. -/
def exTrace6 : OutputData :=
  { lines := [⟨[0], 1⟩, ⟨[1], 2⟩, ⟨[2], 3⟩, ⟨[3], 4⟩, ⟨[4], 5⟩, ⟨[5], 6⟩],
    total := 10 }

/-- A two-line historical trace with durations 1 and 2 and total 3. -/
def exTrace2 : OutputData :=
  { lines := [⟨[0], 1⟩, ⟨[1], 2⟩], total := 3 }

/-- A three-line historical trace with durations 1, 2, 3 and total 6. -/
def exTrace3 : OutputData :=
  { lines := [⟨[0], 1⟩, ⟨[1], 2⟩, ⟨[2], 3⟩], total := 6 }

/-- A one-line historical trace whose total exceeds its last duration. -/
def exTrace1 : OutputData :=
  { lines := [⟨[0], 1⟩], total := 5 }

theorem mapLookup_foldl_acc (l : List Nat) (m : List (List Nat × Nat)) :
    ∀ a : Option Nat,
      m.foldl (fun acc p => if p.1 = l then some p.2 else acc) a
        = match mapLookup m l with
          | some v => some v
          | none => a := by
  induction m with
  | nil => intro a; rfl
  | cons p m ih =>
    intro a
    show m.foldl _ (if p.1 = l then some p.2 else a) = _
    rw [ih]
    have hm : mapLookup (p :: m) l
        = m.foldl (fun acc q => if q.1 = l then some q.2 else acc)
            (if p.1 = l then some p.2 else none) := rfl
    rw [hm, ih]
    cases mapLookup m l with
    | some v => simp
    | none => by_cases hp : p.1 = l <;> simp [hp]

theorem mapLookup_cons (k : List Nat) (v : Nat) (m : List (List Nat × Nat)) (l : List Nat) :
    mapLookup ((k, v) :: m) l
      = match mapLookup m l with
        | some w => some w
        | none => if k = l then some v else none := by
  show m.foldl _ (if k = l then some v else none) = _
  rw [mapLookup_foldl_acc]

theorem mapLookup_mem {m : List (List Nat × Nat)} {l : List Nat} {v : Nat}
    (h : mapLookup m l = some v) : (l, v) ∈ m := by
  induction m with
  | nil => exact absurd h (by simp [mapLookup])
  | cons p m ih =>
    rw [show p = (p.1, p.2) from rfl, mapLookup_cons] at h
    cases hm : mapLookup m l with
    | some w =>
      rw [hm] at h
      cases h
      exact List.mem_cons_of_mem _ (ih hm)
    | none =>
      rw [hm] at h
      by_cases hk : p.1 = l
      · rw [if_pos hk] at h
        cases h
        subst hk
        exact List.mem_cons_self _ _
      · rw [if_neg hk] at h
        cases h

theorem mapLookup_absent {m : List (List Nat × Nat)} {l : List Nat}
    (h : ∀ p ∈ m, p.1 ≠ l) : mapLookup m l = none := by
  induction m with
  | nil => rfl
  | cons p m ih =>
    rw [show p = (p.1, p.2) from rfl, mapLookup_cons]
    rw [ih (fun q hq => h q (List.mem_cons_of_mem _ hq))]
    simp [h p (List.mem_cons_self _ _)]

theorem origMapFrom_keys {j : Nat} {ls : List Line} {p : List Nat × Nat}
    (h : p ∈ origMapFrom j ls) : p.1 ∈ ls.map Line.data := by
  induction ls generalizing j with
  | nil => exact absurd h (by simp [origMapFrom])
  | cons ln ls ih =>
    rw [origMapFrom] at h
    rcases List.mem_cons.mp h with h1 | h1
    · subst h1; exact List.mem_cons_self _ _
    · exact List.mem_cons_of_mem _ (ih h1)

theorem origMapFrom_bound {j : Nat} {ls : List Line} {p : List Nat × Nat}
    (h : p ∈ origMapFrom j ls) : j ≤ p.2 ∧ p.2 < j + ls.length := by
  induction ls generalizing j with
  | nil => exact absurd h (by simp [origMapFrom])
  | cons ln ls ih =>
    rw [origMapFrom] at h
    rcases List.mem_cons.mp h with h1 | h1
    · subst h1; simp
    · have := ih h1
      constructor
      · omega
      · simp only [List.length_cons]; omega

theorem mapLookup_origMapFrom_pos (ln : Line) (rest : List Line) :
    ∀ (pre : List Line) (j : Nat),
      (((pre ++ ln :: rest).map Line.data).Nodup) →
      mapLookup (origMapFrom j (pre ++ ln :: rest)) ln.data = some (j + pre.length) := by
  intro pre
  induction pre with
  | nil =>
    intro j hnd
    rw [List.nil_append, origMapFrom, mapLookup_cons]
    have habs : mapLookup (origMapFrom (j + 1) rest) ln.data = none := by
      apply mapLookup_absent
      intro p hp he
      have hk := origMapFrom_keys hp
      rw [he] at hk
      rw [List.nil_append, List.map_cons] at hnd
      exact (List.nodup_cons.mp hnd).1 hk
    rw [habs]
    simp
  | cons q pre ih =>
    intro j hnd
    rw [List.cons_append, origMapFrom, mapLookup_cons]
    have hnd2 : (((pre ++ ln :: rest)).map Line.data).Nodup := by
      rw [List.cons_append, List.map_cons] at hnd
      exact (List.nodup_cons.mp hnd).2
    rw [ih (j + 1) hnd2]
    simp only [List.length_cons]
    congr 1
    omega

theorem get?_append_cons (a : Line) (suf : List Line) :
    ∀ pre : List Line, (pre ++ a :: suf).get? pre.length = some a := by
  intro pre
  induction pre with
  | nil => rfl
  | cons p pre ih => exact ih

theorem origWriteLine_data (o : OrigOutput) (l : List Nat) :
    (origWriteLine o l).data = o.data := by
  unfold origWriteLine
  cases h : mapLookup o.map l with
  | none => rfl
  | some s => by_cases hs : o.seq ≤ s <;> simp [hs]

theorem origWriteLine_map (o : OrigOutput) (l : List Nat) :
    (origWriteLine o l).map = o.map := by
  unfold origWriteLine
  cases h : mapLookup o.map l with
  | none => rfl
  | some s => by_cases hs : o.seq ≤ s <;> simp [hs]

theorem origRun_cons (o : OrigOutput) (l : List Nat) (rest : List (List Nat)) :
    origRun o (l :: rest) = origRun (origWriteLine o l) rest := rfl

theorem origRun_data (o : OrigOutput) (stream : List (List Nat)) :
    (origRun o stream).data = o.data := by
  induction stream generalizing o with
  | nil => rfl
  | cons l rest ih => rw [origRun_cons, ih, origWriteLine_data]

theorem origRun_map (o : OrigOutput) (stream : List (List Nat)) :
    (origRun o stream).map = o.map := by
  induction stream generalizing o with
  | nil => rfl
  | cons l rest ih => rw [origRun_cons, ih, origWriteLine_map]

theorem origWriteLine_not_found {o : OrigOutput} {l : List Nat}
    (h : mapLookup o.map l = none) : origWriteLine o l = o := by
  unfold origWriteLine
  rw [h]

theorem origWriteLine_hit {o : OrigOutput} {l : List Nat} {s : Nat} {ln : Line}
    (hm : mapLookup o.map l = some s) (hle : o.seq ≤ s)
    (hg : o.data.lines.get? s = some ln) :
    origWriteLine o l = { o with elapsed := ln.dur, seq := o.seq + 1 } := by
  unfold origWriteLine
  rw [hm]
  have hg2 : o.data.lines[s]? = some ln := by rw [← List.get?_eq_getElem?]; exact hg
  simp [hle, hg2]

theorem origWriteLine_behind {o : OrigOutput} {l : List Nat} {s : Nat}
    (hm : mapLookup o.map l = some s) (hlt : s < o.seq) :
    origWriteLine o l = { o with seq := o.seq + 1 } := by
  unfold origWriteLine
  rw [hm]
  simp [Nat.not_le.mpr hlt]

theorem origRun_insert_absent (o : OrigOutput) (xs ys : List (List Nat)) (l : List Nat)
    (h : mapLookup o.map l = none) :
    origRun o (xs ++ l :: ys) = origRun o (xs ++ ys) := by
  have h1 : origRun o (xs ++ l :: ys) = origRun (origWriteLine (origRun o xs) l) ys := by
    simp [origRun, List.foldl_append]
  have h2 : origRun o (xs ++ ys) = origRun (origRun o xs) ys := by
    simp [origRun, List.foldl_append]
  have h3 : mapLookup (origRun o xs).map l = none := by rw [origRun_map]; exact h
  rw [h1, h2, origWriteLine_not_found h3]

theorem replay_suffix (d : OutputData) :
    ∀ (suf pre : List Line) (o : OrigOutput),
      d.lines = pre ++ suf →
      ((d.lines.map Line.data).Nodup) →
      o.data.lines = d.lines.map zeroLine →
      o.map = origMapFrom 0 d.lines →
      o.seq = pre.length →
      suf ≠ [] →
      (origRun o (suf.map Line.data)).elapsed = ((d.lines.getLast?.map Line.dur).getD 0) := by
  intro suf
  induction suf with
  | nil => intro pre o _ _ _ _ _ hne; exact absurd rfl hne
  | cons ln suf ih =>
    intro pre o hsplit hnd hlines hmap hseq _
    have hm : mapLookup o.map ln.data = some pre.length := by
      rw [hmap, hsplit]
      have h := mapLookup_origMapFrom_pos ln suf pre 0 (by rw [hsplit] at hnd; exact hnd)
      simpa using h
    have hle : o.seq ≤ pre.length := le_of_eq hseq
    have hg : o.data.lines.get? pre.length = some (zeroLine ln) := by
      rw [hlines, hsplit, List.map_append, List.map_cons]
      have h := get?_append_cons (zeroLine ln) (suf.map zeroLine) (pre.map zeroLine)
      rwa [List.length_map] at h
    have hstep : origWriteLine o ln.data
        = { o with elapsed := (zeroLine ln).dur, seq := o.seq + 1 } :=
      origWriteLine_hit hm hle hg
    rw [List.map_cons, origRun_cons, hstep]
    cases suf with
    | nil =>
      show ({ o with elapsed := (zeroLine ln).dur, seq := o.seq + 1 } : OrigOutput).elapsed = _
      rw [hsplit, List.getLast?_concat]
      rfl
    | cons ln2 suf2 =>
      apply ih (pre ++ [ln])
      · rw [hsplit, List.append_cons]
      · exact hnd
      · rw [← hlines]
      · rw [← hmap]
      · simp [hseq]
      · simp

/-- C1. The claim states that the accumulated elapsed values reported by
`Writer::completed` are non-decreasing over any live input sequence; the
code refutes it: with the six-line trace of cumulative durations 1..6,
feeding line 5 and then line 1 yields completed values 6 and then 2,
because `write_line` compares the matched index against a running count of
matched lines (not the highest consumed index) and assigns (not
accumulates) the stored duration. -/
theorem c1_completed_not_monotone :
    ¬ List.Chain' (fun a b => a ≤ b)
        (writerCompleteds (writerNew (some exTrace6)) [([5], 1), ([1], 2)]) := by
  have h : writerCompleteds (writerNew (some exTrace6)) [([5], 1), ([1], 2)] = [6, 2] := by
    decide
  rw [h]
  simp [List.chain'_cons]

/-- C2 counterexample. A live run whose line sequence exactly matches the
stored trace does not in general reach the trace's `total`: for the
one-line trace with duration 1 and total 5, replaying its single line
leaves the accumulated elapsed value at 1 ≠ 5. -/
theorem c2_replay_not_total :
    (writerRun (writerNew (some exTrace1)) [([0], 1)]).len = some exTrace1.total
    ∧ (writerRun (writerNew (some exTrace1)) [([0], 1)]).completed ≠ exTrace1.total := by decide

/-- C2 amended. A run whose live line sequence exactly matches a stored
trace's line sequence (with pairwise-distinct contents) reaches a final
accumulated elapsed value equal to the `dur` field stored with the trace's
last line (the cumulative time at which that line was recorded), not the
trace's `total`. -/
theorem c2_replay_last_dur (d : OutputData) (h1 : d.lines ≠ [])
    (h2 : (d.lines.map Line.data).Nodup) :
    (origRun (origNew d) (d.lines.map Line.data)).elapsed
      = ((d.lines.getLast?.map Line.dur).getD 0) :=
  replay_suffix d d.lines [] (origNew d) rfl h2 rfl rfl rfl h1

/-- C2 amended, witnessed on the two-line trace: the final elapsed value is
the last line's stored duration 2. -/
theorem c2_replay_last_dur_witness :
    (origRun (origNew exTrace2) (exTrace2.lines.map Line.data)).elapsed
      = ((exTrace2.lines.getLast?.map Line.dur).getD 0) :=
  c2_replay_last_dur exTrace2 (by decide) (by decide)

/-- C3 counterexample. On the three-line trace with durations 1, 2, 3, the
first live line matching index 2 leaves the accumulated elapsed value at 3,
not at the claimed sum 0 + (1 + 2 + 3) = 6 over the skipped range, and the
cursor becomes 1, not the matched index 2. -/
theorem c3_not_sum_over_range :
    (origWriteLine (origNew exTrace3) [2]).elapsed
        ≠ (origNew exTrace3).elapsed + ((exTrace3.lines.map Line.dur).take 3).sum
    ∧ (origWriteLine (origNew exTrace3) [2]).seq ≠ 2 := by decide

/-- C3 amended. When a live line's content is found at sequence index `s`
with the match counter at most `s`, the engine assigns the accumulated
elapsed value the `dur` stored at index `s` (replacing, not adding) and
increments the counter by one (it does not jump to `s`); when `s` is behind
the counter, only the counter is incremented. -/
theorem c3_match_step_behavior (o : OrigOutput) (l : List Nat) (s : Nat) (ln : Line)
    (hm : mapLookup o.map l = some s) (hg : o.data.lines.get? s = some ln) :
    (o.seq ≤ s → origWriteLine o l = { o with elapsed := ln.dur, seq := o.seq + 1 })
    ∧ (s < o.seq → origWriteLine o l = { o with seq := o.seq + 1 }) :=
  ⟨fun hle => origWriteLine_hit hm hle hg, fun hlt => origWriteLine_behind hm hlt⟩

/-- C3 amended, witnessed at index 2 of the three-line trace. -/
theorem c3_match_step_behavior_witness :
    origWriteLine (origNew exTrace3) [2]
      = { origNew exTrace3 with elapsed := 3, seq := 1 } :=
  (c3_match_step_behavior (origNew exTrace3) [2] 2 ⟨[], 3⟩ (by decide) (by decide)).1
    (by decide)

/-- C4. The claim states duplicate occurrences of an already-matched line
are neutral; the code refutes it: on the two-line trace, the stream
[l0, l0, l1] ends with accumulated elapsed 1 while [l0, l1] ends with 2 —
the duplicate advances the match counter past index 1, so the final line no
longer updates the estimate. -/
theorem c4_duplicate_changes_final :
    (origRun (origNew exTrace2) [[0], [0], [1]]).elapsed = 1
    ∧ (origRun (origNew exTrace2) [[0], [1]]).elapsed = 2 := by decide

/-- C5. A live line whose content is absent from the historical trace's
map leaves the match engine state unchanged, so inserting such a line at
any position does not change the final accumulated elapsed value. -/
theorem c5_unmatched_lines_neutral (o : OrigOutput) (xs ys : List (List Nat)) (l : List Nat)
    (h : mapLookup o.map l = none) :
    (origRun o (xs ++ l :: ys)).elapsed = (origRun o (xs ++ ys)).elapsed := by
  rw [origRun_insert_absent o xs ys l h]

/-- C5 witnessed: inserting the unknown line 9 between the two known lines
of the two-line trace leaves the final elapsed value unchanged. -/
theorem c5_unmatched_lines_neutral_witness :
    (origRun (origNew exTrace2) ([[0]] ++ [9] :: [[1]])).elapsed
      = (origRun (origNew exTrace2) ([[0]] ++ [[1]])).elapsed :=
  c5_unmatched_lines_neutral (origNew exTrace2) [[0]] [[1]] [9] (by decide)

/-- C7 counterexample. Recording two distinct lines at times 3 and 5 after
run start stores durations 3 and 5 (each the time since run start), not
3 and 2 as the claimed time-since-previous-distinct-line semantics would
require. -/
theorem c7_duration_cumulative_cex :
    ((currRun currNew [([0], 3), ([1], 5)]).data.lines.map Line.dur) = [3, 5]
    ∧ ((currRun currNew [([0], 3), ([1], 5)]).data.lines.map Line.dur) ≠ [3, 2] := by decide

/-- C7 amended. The run recorder stores with every first-seen distinct
line the time elapsed since the run started (`start.elapsed()`), not the
time since the previous distinct line; an already-seen line leaves the
recorded lines unchanged. -/
theorem c7_duration_since_start (c : CurrOutput) (line : List Nat) (now : Nat) :
    (c.map.find? (fun p => decide (p.1 = line)) = none →
      (currWriteLine c line now).data.lines = c.data.lines ++ [{ data := [], dur := now }])
    ∧ (∀ q, c.map.find? (fun p => decide (p.1 = line)) = some q →
        (currWriteLine c line now).data.lines = c.data.lines) := by
  constructor
  · intro h
    simp only [currWriteLine, h]
  · intro q h
    simp only [currWriteLine, h]

/-- C7 amended, witnessed: the first line recorded at time 3 is stored with
duration 3. -/
theorem c7_duration_since_start_witness :
    (currWriteLine currNew [0] 3).data.lines = currNew.data.lines ++ [{ data := [], dur := 3 }] :=
  (c7_duration_since_start currNew [0] 3).1 (by decide)

/-- C8. `Writer::finish` rewrites the trace file with the new trace exactly
when the run succeeded or no prior trace was loaded; an unsuccessful run
with a prior trace leaves the stored file content unchanged. -/
theorem c8_finish_persistence (w : Writer) (success : Bool) (stored : List Nat)
    (serialize : OutputData → List Nat) (totalNow : Nat) :
    (success = false → w.orig.isSome → writerFinishFile w success stored serialize totalNow = stored)
    ∧ ((success = true ∨ w.orig = none) →
        writerFinishFile w success stored serialize totalNow
          = serialize (currFinish w.curr totalNow)) := by
  constructor
  · intro hs ho
    unfold writerFinishFile
    rw [hs]
    cases h : w.orig with
    | none => rw [h] at ho; simp at ho
    | some o => simp [h]
  · intro h
    unfold writerFinishFile
    rcases h with h | h
    · rw [h]; simp
    · rw [h]; simp

/-- C8 witnessed: a failed run with a loaded prior trace keeps the stored
bytes; a successful run rewrites them with the serialized new trace. -/
theorem c8_finish_persistence_witness :
    writerFinishFile (writerNew (some exTrace2)) false [7] (fun _ => [9]) 0 = [7]
    ∧ writerFinishFile (writerNew none) true [7] (fun _ => [9]) 0 = [9] := by
  constructor
  · exact (c8_finish_persistence (writerNew (some exTrace2)) false [7] (fun _ => [9]) 0).1 rfl rfl
  · exact (c8_finish_persistence (writerNew none) true [7] (fun _ => [9]) 0).2 (Or.inl rfl)

/-- C9. For every loaded historical trace and every live line fed at any
point of the run, the per-line update of the match engine never reaches the
out-of-bounds panic: every sequence index stored in the content map is a
valid index of the lines vector, so the checked update always succeeds and
agrees with the total model. -/
theorem c9_write_line_total (d : OutputData) (stream : List (List Nat)) (line : List Nat) :
    origWriteLineChecked (origRun (origNew d) stream) line
      = some (origWriteLine (origRun (origNew d) stream) line) := by
  have hmap : (origRun (origNew d) stream).map = origMapFrom 0 d.lines := by
    rw [origRun_map]; rfl
  have hdata : (origRun (origNew d) stream).data.lines = d.lines.map zeroLine := by
    rw [origRun_data]; rfl
  set o := origRun (origNew d) stream with ho
  unfold origWriteLineChecked origWriteLine
  cases hm : mapLookup o.map line with
  | none => rfl
  | some s =>
    by_cases hle : o.seq ≤ s
    · have hm2 : mapLookup (origMapFrom 0 d.lines) line = some s := by
        rw [← hmap]; exact hm
      have hs : s < d.lines.length := by
        have hb := (origMapFrom_bound (mapLookup_mem hm2)).2
        simpa using hb
      cases hg : o.data.lines.get? s with
      | none =>
        exfalso
        have hlen := List.get?_eq_none.mp hg
        rw [hdata, List.length_map] at hlen
        omega
      | some ln =>
        have hg2 : o.data.lines[s]? = some ln := by rw [← List.get?_eq_getElem?]; exact hg
        simp [hle, hg2]
    · simp [hle]

/-- C10. A trace file that exists with length zero is classified as
`FileEntry::New` by `open_or_create`, so `OrigOutput::new` returns no
historical output without ever invoking the deserializer (the result is
`ok none` for every parse function), and the match engine consequently
reports no length. -/
theorem c10_empty_file_no_parse (content : List Nat)
    (parse : List Nat → Except Unit OutputData) (h : content.length = 0) :
    origOutputNewFile (openOrCreate content) parse = Except.ok none
    ∧ Writer.len { orig := none, curr := currNew } = none := by
  constructor
  · unfold openOrCreate
    rw [if_pos h]
    rfl
  · rfl

/-- C10 witnessed on the empty file, with a parse function that fails on
every input: it is never consulted. -/
theorem c10_empty_file_no_parse_witness :
    origOutputNewFile (openOrCreate []) (fun _ => Except.error ()) = Except.ok none
    ∧ Writer.len { orig := none, curr := currNew } = none :=
  c10_empty_file_no_parse [] (fun _ => Except.error ()) rfl

theorem currWriteLine_seen {c : CurrOutput} {X : List Nat} {q : List Nat × LineData} (now : Nat)
    (hf : c.map.find? (fun p => decide (p.1 = X)) = some q) :
    currWriteLine c X now
      = { c with map := c.map.map (fun p => if p.1 = X then (p.1, { p.2 with dup := true }) else p) } := by
  unfold currWriteLine
  rw [hf]

theorem fillLine_none {m : List (List Nat × LineData)} {i : Nat} (ln : Line)
    (h : m.find? (fun p => decide (p.2.seq = i) && !p.2.dup) = none) :
    fillLine m i ln = ln := by
  unfold fillLine
  rw [h]

theorem fillLine_some {m : List (List Nat × LineData)} {i : Nat} {p : List Nat × LineData}
    (ln : Line) (h : m.find? (fun p => decide (p.2.seq = i) && !p.2.dup) = some p) :
    fillLine m i ln = { ln with data := p.1 } := by
  unfold fillLine
  rw [h]

theorem currWriteLine_fresh {c : CurrOutput} {X : List Nat} (now : Nat)
    (hf : c.map.find? (fun p => decide (p.1 = X)) = none) :
    currWriteLine c X now
      = { data := { c.data with lines := c.data.lines ++ [{ data := [], dur := now }] },
          map := c.map ++ [(X, { seq := c.data.lines.length, dup := false })] } := by
  unfold currWriteLine
  rw [hf]

theorem map_update_keys (m : List (List Nat × LineData)) (X : List Nat) :
    (m.map (fun p => if p.1 = X then (p.1, { p.2 with dup := true }) else p)).map Prod.fst
      = m.map Prod.fst := by
  induction m with
  | nil => rfl
  | cons p m ih =>
    simp only [List.map_cons, ih]
    by_cases hp : p.1 = X <;> simp [hp]

theorem currInv_init : CurrInv currNew [] := by
  refine ⟨?_, ?_, ?_, ?_⟩ <;> simp [currNew]

theorem currInv_step {c : CurrOutput} {processed : List (List Nat)}
    (inv : CurrInv c processed) (X : List Nat) (now : Nat) :
    CurrInv (currWriteLine c X now) (processed ++ [X]) := by
  cases hf : c.map.find? (fun p => decide (p.1 = X)) with
  | some q =>
    have hq1 : q.1 = X := by
      have hdq := List.find?_some hf
      simpa using hdq
    have hqm : q ∈ c.map := List.mem_of_find?_eq_some hf
    have hXkey : X ∈ c.map.map Prod.fst := hq1 ▸ List.mem_map_of_mem Prod.fst hqm
    have hXproc : X ∈ processed := (inv.keysMem X).mp hXkey
    have hcnt : processed.count X ≠ 0 := by
      rw [Ne, List.count_eq_zero]
      exact fun h => h hXproc
    rw [currWriteLine_seen now hf]
    refine ⟨?_, ?_, ?_, ?_⟩
    · rw [map_update_keys]
      exact inv.keysNodup
    · exact inv.slotsEmpty
    · intro Y
      rw [map_update_keys, List.mem_append]
      constructor
      · intro h
        exact Or.inl ((inv.keysMem Y).mp h)
      · intro h
        rcases h with h | h
        · exact (inv.keysMem Y).mpr h
        · rw [List.mem_singleton] at h
          subst h
          exact hXkey
    · intro pn hpn
      rcases List.mem_map.mp hpn with ⟨p, hp, hfp⟩
      by_cases hpx : p.1 = X
      · rw [if_pos hpx] at hfp
        subst hfp
        constructor
        · intro _
          show 2 ≤ (processed ++ [X]).count p.1
          have hone : List.count X [X] = 1 := by simp
          rw [hpx, List.count_append, hone]
          omega
        · intro _
          rfl
      · rw [if_neg hpx] at hfp
        subst hfp
        have hcount : (processed ++ [X]).count p.1 = processed.count p.1 := by
          rw [List.count_append]
          have hz : List.count p.1 [X] = 0 := by
            rw [List.count_eq_zero, List.mem_singleton]
            exact fun h => hpx h
          omega
        rw [hcount]
        exact inv.dupIff p hp
  | none =>
    have hXnotkey : ∀ p ∈ c.map, p.1 ≠ X := by
      intro p hp he
      exact List.find?_eq_none.mp hf p hp (decide_eq_true he)
    have hXnotproc : X ∉ processed := by
      intro hmem
      rcases List.mem_map.mp ((inv.keysMem X).mpr hmem) with ⟨p, hp, hfp⟩
      exact hXnotkey p hp hfp
    rw [currWriteLine_fresh now hf]
    refine ⟨?_, ?_, ?_, ?_⟩
    · rw [List.map_append]
      rw [List.nodup_append]
      refine ⟨inv.keysNodup, List.nodup_singleton X, ?_⟩
      intro Y hY hY2
      rw [show ([(X, LineData.mk c.data.lines.length false)].map Prod.fst) = [X] from rfl,
        List.mem_singleton] at hY2
      subst hY2
      rcases List.mem_map.mp hY with ⟨p, hp, hfp⟩
      exact hXnotkey p hp hfp
    · intro ln hln
      rcases List.mem_append.mp hln with h | h
      · exact inv.slotsEmpty ln h
      · rw [List.mem_singleton] at h
        subst h
        rfl
    · intro Y
      rw [List.map_append, List.mem_append, List.mem_append,
        show ([(X, LineData.mk c.data.lines.length false)].map Prod.fst) = [X] from rfl,
        inv.keysMem Y]
    · intro p hp
      rcases List.mem_append.mp hp with h | h
      · have hne : List.count p.1 [X] = 0 := by
          rw [List.count_eq_zero, List.mem_singleton]
          exact fun he => hXnotkey p h he
        rw [List.count_append, hne]
        have h0 : (processed.count p.1 + 0) = processed.count p.1 := by omega
        rw [h0]
        exact inv.dupIff p h
      · rw [List.mem_singleton] at h
        subst h
        constructor
        · intro hfalse
          exact Bool.noConfusion hfalse
        · intro h2
          exfalso
          have hz : processed.count X = 0 := List.count_eq_zero.mpr hXnotproc
          have hone : List.count (X, LineData.mk c.data.lines.length false).1 [X] = 1 := by
            simp
          rw [List.count_append, hz, hone] at h2
          omega

theorem currRun_cons (c : CurrOutput) (p : List Nat × Nat) (rest : List (List Nat × Nat)) :
    currRun c (p :: rest) = currRun (currWriteLine c p.1 p.2) rest := rfl

theorem currInv_run {c : CurrOutput} {processed : List (List Nat)}
    (inv : CurrInv c processed) (inputs : List (List Nat × Nat)) :
    CurrInv (currRun c inputs) (processed ++ inputs.map Prod.fst) := by
  induction inputs generalizing c processed with
  | nil => simpa using inv
  | cons p rest ih =>
    rw [currRun_cons,
      show processed ++ (p :: rest).map Prod.fst
          = (processed ++ [p.1]) ++ rest.map Prod.fst by simp]
    exact ih (currInv_step inv p.1 p.2)

theorem fillFrom_shape {m : List (List Nat × LineData)} :
    ∀ {ls : List Line} {i : Nat} {lnf : Line},
      (∀ ln ∈ ls, ln.data = []) →
      lnf ∈ fillFrom m i ls →
      lnf.data = [] ∨ ∃ p ∈ m, p.2.dup = false ∧ lnf.data = p.1 ∧ i ≤ p.2.seq := by
  intro ls
  induction ls with
  | nil =>
    intro i lnf _ h
    exact absurd h (by simp [fillFrom])
  | cons ln ls ih =>
    intro i lnf hempty hmem
    rw [fillFrom] at hmem
    rcases List.mem_cons.mp hmem with h1 | h1
    · subst h1
      cases hfind : m.find? (fun p => decide (p.2.seq = i) && !p.2.dup) with
      | none =>
        left
        rw [fillLine_none ln hfind]
        exact hempty ln (List.mem_cons_self _ _)
      | some p =>
        right
        have hpred := List.find?_some hfind
        rw [Bool.and_eq_true, decide_eq_true_eq, Bool.not_eq_true'] at hpred
        rw [fillLine_some ln hfind]
        exact ⟨p, List.mem_of_find?_eq_some hfind, hpred.2, rfl, le_of_eq hpred.1.symm⟩
    · rcases ih (fun x hx => hempty x (List.mem_cons_of_mem _ hx)) h1 with h | ⟨p, hp, hd, he, hi⟩
      · left
        exact h
      · right
        exact ⟨p, hp, hd, he, by omega⟩

theorem fillFrom_pairwise {m : List (List Nat × LineData)}
    (hkeys : (m.map Prod.fst).Nodup) :
    ∀ (ls : List Line) (i : Nat), (∀ ln ∈ ls, ln.data = []) →
      (fillFrom m i ls).Pairwise
        (fun a b => a.data ≠ [] → b.data ≠ [] → a.data ≠ b.data) := by
  intro ls
  induction ls with
  | nil =>
    intro i _
    simp [fillFrom]
  | cons ln ls ih =>
    intro i hempty
    rw [fillFrom]
    refine List.Pairwise.cons ?_ (ih (i + 1) (fun x hx => hempty x (List.mem_cons_of_mem _ hx)))
    intro y hy ha hb
    cases hfind : m.find? (fun p => decide (p.2.seq = i) && !p.2.dup) with
    | none =>
      rw [fillLine_none ln hfind] at ha
      exact absurd (hempty ln (List.mem_cons_self _ _)) ha
    | some p =>
      rw [fillLine_some ln hfind] at ha ⊢
      have hpred := List.find?_some hfind
      rw [Bool.and_eq_true, decide_eq_true_eq, Bool.not_eq_true'] at hpred
      have hpm := List.mem_of_find?_eq_some hfind
      rcases fillFrom_shape (fun x hx => hempty x (List.mem_cons_of_mem _ hx)) hy
        with hz | ⟨q, hq, hdq, heq, hiq⟩
      · exact absurd hz hb
      · intro heq2
        rw [heq] at heq2
        have hpq : p = q :=
          List.inj_on_of_nodup_map hkeys hpm hq heq2
        rw [hpq] at hpred
        omega

/-- C6 counterexample. A run that prints the same content twice produces a
trace that omits that content entirely: `finish` fills only non-duplicate
entries and then retains only non-empty contents, so the duplicated line's
slot is dropped, not kept as its first occurrence. -/
theorem c6_duplicate_dropped_cex :
    (currFinish (currRun currNew [([0], 1), ([0], 2)]) 3).lines = [] := by decide

/-- C6 amended. A line content that occurs more than once in the run is
omitted entirely from the trace produced at finish (rather than recorded
once at its first occurrence); the contents of the produced trace are
pairwise distinct. -/
theorem c6_duplicate_dropped_unique (inputs : List (List Nat × Nat)) (totalNow : Nat) :
    (∀ X : List Nat, 2 ≤ (inputs.map Prod.fst).count X →
      ∀ ln ∈ (currFinish (currRun currNew inputs) totalNow).lines, ln.data ≠ X)
    ∧ (currFinish (currRun currNew inputs) totalNow).lines.Pairwise
        (fun a b => a.data ≠ b.data) := by
  have inv : CurrInv (currRun currNew inputs) ([] ++ inputs.map Prod.fst) :=
    currInv_run currInv_init inputs
  rw [List.nil_append] at inv
  constructor
  · intro X hX ln hln hdata
    unfold currFinish at hln
    simp only at hln
    have hmem := List.mem_of_mem_filter hln
    have hne : ln.data ≠ [] := by
      have hpred := List.of_mem_filter hln
      simpa using hpred
    rcases fillFrom_shape inv.slotsEmpty hmem with h | ⟨p, hp, hdup, he, _⟩
    · exact hne h
    · have hkey : p.1 = X := by rw [← he, hdata]
      have hdup2 : p.2.dup = true := (inv.dupIff p hp).mpr (by rw [hkey]; exact hX)
      rw [hdup] at hdup2
      exact Bool.noConfusion hdup2
  · have hpw := fillFrom_pairwise inv.keysNodup
      (currRun currNew inputs).data.lines 0 inv.slotsEmpty
    unfold currFinish
    simp only
    have hsub : ((fillFrom (currRun currNew inputs).map 0
          (currRun currNew inputs).data.lines).filter (fun ln => !ln.data.isEmpty)).Pairwise
        (fun a b => a.data ≠ [] → b.data ≠ [] → a.data ≠ b.data) :=
      List.Pairwise.sublist (List.filter_sublist _) hpw
    refine List.Pairwise.imp_of_mem ?_ hsub
    intro a b ha hb hR
    have hane : a.data ≠ [] := by
      have hpa := List.of_mem_filter ha
      simpa using hpa
    have hbne : b.data ≠ [] := by
      have hpb := List.of_mem_filter hb
      simpa using hpb
    exact hR hane hbne

/-- C6 amended, witnessed: in the run [l0, l0, l1] the duplicated content
l0 is absent from the produced trace, whose only line is l1 recorded at
time 3. -/
theorem c6_duplicate_dropped_unique_witness :
    2 ≤ (([([0], 1), ([0], 2), ([1], 3)] : List (List Nat × Nat)).map Prod.fst).count [0]
    ∧ (Line.mk [1] 3).data ≠ [0] := by
  constructor
  · decide
  · exact (c6_duplicate_dropped_unique [([0], 1), ([0], 2), ([1], 3)] 4).1 [0] (by decide)
      (Line.mk [1] 3) (by decide)

end BuildProgress
